import Mathlib

/-!
# Verification of the `roll.py` GM tools (dice evaluator, oracle, spark tables)

This file gives a shallow embedding of the program in `src/roll.py` and proves
the specification claims about it.

Conventions of the embedding:
* Python strings are modelled as `List Char` (`Str` below).
* The process-wide random source (`random.randint`, `random.choice`) is
  modelled by a stream `g : Nat → Nat` of arbitrary natural numbers; the
  `k`-th call of `random.randint(lo, hi)` returns `lo + g k % (hi - lo + 1)`,
  which ranges exactly over `[lo, hi]` as `g` varies.
* `print` side effects are dropped; the structured data that the program
  prints and returns is modelled as return values.
* Python `ValueError` / missing-key failures become `Except` error values.
* Functions that Python writes with index-based `while` loops are written
  with an explicit fuel argument (initialised to the number of lines, an
  upper bound on the number of loop steps, each of which consumes at least
  one line) so that all definitions compute by kernel reduction.
-/

abbrev Str := List Char

/-- ASCII whitespace, the characters Python's `str.strip` / `\s` remove from
an ASCII string: space, tab, newline, vertical tab, form feed, carriage return. -/
def isAsciiWs (c : Char) : Bool :=
  c == ' ' || c == '\t' || c == '\n' || c == '\r' || c.toNat == 11 || c.toNat == 12

/-- Python `str.strip()`: drop leading and trailing whitespace. -/
def strip (l : Str) : Str :=
  ((l.dropWhile isAsciiWs).reverse.dropWhile isAsciiWs).reverse

/-- Python `str.split(";")`. -/
def splitSemi : Str → List Str
  | [] => [[]]
  | c :: cs =>
    if c = ';' then [] :: splitSemi cs
    else
      match splitSemi cs with
      | h :: t => (c :: h) :: t
      | [] => [[c]]

/-- `[p.strip() for p in line.split(";")]`. -/
def splitStrip (l : Str) : List Str := (splitSemi l).map strip

/-- Python `str.isdigit()` (restricted to ASCII): nonempty and all decimal digits. -/
def isDigits (l : Str) : Bool := !l.isEmpty && l.all Char.isDigit

/-- Value of a decimal digit string, as Python `int(...)` on it. -/
def digitsToNat (l : Str) : Nat := l.foldl (fun n c => 10 * n + (c.toNat - 48)) 0

/-- Maximal run of decimal digits at the head of the string (the greedy `\d*`),
together with the remainder. -/
def takeDigits : Str → Str × Str
  | [] => ([], [])
  | c :: cs =>
    if c.isDigit then (c :: (takeDigits cs).1, (takeDigits cs).2)
    else ([], c :: cs)

/-!
## Dice expression evaluator (`roll_expression`, `src/roll.py` lines 12–51)

The scanner implements `re.findall(r'[+-]?\d*d?\d+', expr)`: at each position
try the (greedy, leftmost) match of `[+-]? \d* d? \d+`; on success emit the
match and continue after it, on failure advance one character.
-/

/-- Greedy match of the unsigned core `\d* d? \d+` at the head of the string:
take the maximal digit run; if a `'d'` followed by at least one digit comes
next, include the `'d'` and the following maximal digit run; otherwise the
match is the (necessarily nonempty) digit run alone. Returns the matched
token and the rest of the input. -/
def matchCore (cs : Str) : Option (Str × Str) :=
  let p := takeDigits cs
  match p.2 with
  | 'd' :: rest2 =>
    let q := takeDigits rest2
    if q.1 = [] then
      if p.1 = [] then none else some (p.1, p.2)
    else some (p.1 ++ 'd' :: q.1, q.2)
  | _ => if p.1 = [] then none else some (p.1, p.2)

/-- Greedy match of `[+-]? \d* d? \d+` at the head of the string. -/
def matchAt : Str → Option (Str × Str)
  | [] => none
  | c :: cs =>
    if c = '+' ∨ c = '-' then
      match matchCore cs with
      | some (m, r) => some (c :: m, r)
      | none => none
    else matchCore (c :: cs)

/-- The `re.findall` scan, with fuel (one unit per scan step; each step
consumes at least one character, so `fuel = input length` is enough). -/
def scanFuel : Nat → Str → List Str
  | 0, _ => []
  | _, [] => []
  | fuel + 1, c :: cs =>
    match matchAt (c :: cs) with
    | some (m, r) => m :: scanFuel fuel r
    | none => scanFuel fuel cs

/-- `re.findall(r'[+-]?\d*d?\d+', l)`. -/
def findall (l : Str) : List Str := scanFuel l.length l

/-- `expr.lower().replace(" ", "")`. -/
def preprocess (s : Str) : Str := (s.map Char.toLower).filter (fun c => !(c == ' '))

/-- Leading-sign handling of a token: `-` gives sign `-1`, `+` gives `1`,
anything else leaves the token alone with sign `1`. -/
def stripSign : Str → Int × Str
  | [] => (1, [])
  | c :: cs =>
    if c = '-' then (-1, cs)
    else if c = '+' then (1, cs)
    else (1, c :: cs)

/-- `re.fullmatch(r'(\d*)d(\d+)', token)`: the whole (sign-stripped) token is a
possibly-empty digit run, a `'d'`, and a nonempty digit run; count defaults
to 1 when the first run is empty. Returns `(count, sides)`. -/
def parseDice (cs : Str) : Option (Nat × Nat) :=
  let p := takeDigits cs
  match p.2 with
  | 'd' :: rest2 =>
    let q := takeDigits rest2
    if q.1 = [] ∨ ¬ q.2 = [] then none
    else some ((if p.1 = [] then 1 else digitsToNat p.1), digitsToNat q.1)
  | _ => none

/-- The `ValueError`s `roll_expression` can raise. -/
inductive RollError where
  | invalidExpression
  | nonPositiveDice
  | invalidToken (t : Str)
deriving DecidableEq, Repr

/-- A breakdown entry of the `details` list: either a dice term with its
individual draws, or a constant; `sign` is `1` or `-1`. -/
inductive Detail where
  | dice (sign : Int) (num sides : Nat) (rolls : List Nat)
  | const (sign : Int) (val : Nat)
deriving DecidableEq, Repr

/-- The signed subtotal a breakdown entry contributes to the total. -/
def detailSub : Detail → Int
  | .dice s _ _ rolls => s * (rolls.sum : Int)
  | .const s v => s * (v : Int)

/-- One iteration of the token loop of `roll_expression`: strip the sign,
classify as dice term / constant / invalid, drawing `num` uniform values in
`[1, sides]` from the stream for a dice term. `k` is the stream position;
returns the signed subtotal, the breakdown entry and the new stream position.
(`sides ≤ 0 or num ≤ 0` in Python is `= 0` here, since both are parsed from
digit strings and hence non-negative.) -/
def evalToken (g : Nat → Nat) (k : Nat) (tok : Str) : Except RollError (Int × Detail × Nat) :=
  let sign := (stripSign tok).1
  let body := (stripSign tok).2
  match parseDice body with
  | some (num, sides) =>
    if sides = 0 ∨ num = 0 then .error .nonPositiveDice
    else
      let rolls := (List.range num).map (fun j => 1 + g (k + j) % sides)
      .ok (sign * (rolls.sum : Int), .dice sign num sides rolls, k + num)
  | none =>
    if isDigits body then
      .ok (sign * (digitsToNat body : Int), .const sign (digitsToNat body), k)
    else .error (.invalidToken tok)

/-- The token loop of `roll_expression`, accumulating `total` and `details`. -/
def evalTokens (g : Nat → Nat) :
    List Str → Nat → Int → List Detail → Except RollError (Int × List Detail)
  | [], _, total, details => .ok (total, details)
  | t :: ts, k, total, details =>
    match evalToken g k t with
    | .error e => .error e
    | .ok (sub, d, k2) => evalTokens g ts k2 (total + sub) (details ++ [d])

/-- `roll_expression` (`src/roll.py` lines 14–51): lowercase, remove spaces,
scan for tokens, fail if none, then evaluate all tokens; returns the total
and the breakdown. -/
def roll_expression (g : Nat → Nat) (expr : Str) : Except RollError (Int × List Detail) :=
  let toks := findall (preprocess expr)
  if toks = [] then .error .invalidExpression
  else evalTokens g toks 0 0 []

/-- A (sign-stripped) token body that the evaluator classifies without the
`Invalid token` error: either `digits* 'd' digits+` (a dice term) or a
nonempty digit string (a constant). -/
def goodBody (body : Str) : Prop :=
  (∃ ds ds2, body = ds ++ 'd' :: ds2 ∧ (∀ c ∈ ds, c.isDigit = true) ∧ ds2 ≠ [] ∧
    (∀ c ∈ ds2, c.isDigit = true)) ∨
  (body ≠ [] ∧ ∀ c ∈ body, c.isDigit = true)

/-- Well-formedness of a breakdown entry produced by the evaluator: the sign
is `±1`; for a dice entry, sides and count are positive, there are exactly
`num` draws and each lies in `[1, sides]`. -/
def diceOk : Detail → Prop
  | .dice s n sd rl => (s = 1 ∨ s = -1) ∧ 1 ≤ sd ∧ 1 ≤ n ∧ rl.length = n ∧
      ∀ x ∈ rl, 1 ≤ x ∧ x ≤ sd
  | .const s _ => s = 1 ∨ s = -1

/-- Whether a `roll_expression` outcome is the `Invalid token` error. -/
def isInvalidTokenErr : Except RollError (Int × List Detail) → Bool
  | .error (.invalidToken _) => true
  | _ => false

/-!
## Scaled oracle (`src/roll.py` lines 55–110)
-/

inductive YesNo where
  | yes
  | no
deriving DecidableEq, Repr

inductive Exceptional where
  | exYes
  | exNo
deriving DecidableEq, Repr

/-- The structured content of `oracle_scaled`'s printed/returned result. -/
structure OracleOutcome where
  roll : Nat
  result : YesNo
  exceptional : Option Exceptional
  random_event : Bool
  thresholds : Nat × Nat × Nat
deriving DecidableEq, Repr

/-- `ORACLE_THRESHOLDS`: mode → (left, center, right). -/
def ORACLE_THRESHOLDS : List (Str × (Nat × Nat × Nat)) :=
  [("oc".toList, (18, 90, 99)), ("onc".toList, (17, 85, 98)),
   ("ovl".toList, (15, 75, 96)), ("ol".toList, (13, 65, 94)),
   ("o".toList, (10, 50, 91)), ("ou".toList, (7, 35, 88)),
   ("ovu".toList, (5, 25, 86)), ("oni".toList, (3, 15, 84)),
   ("oi".toList, (2, 10, 83))]

/-- `is_doubles`: true for 11, 22, …, 99 (not 100). -/
def is_doubles (n : Nat) : Bool := 10 ≤ n && n ≤ 99 && n % 11 == 0

inductive OracleError where
  | unknownMode (m : Str)
deriving DecidableEq, Repr

/-- `oracle_scaled` (`src/roll.py` lines 71–110): look up the mode's
thresholds, draw a d100, classify YES/NO with exceptional flags, and flag a
random event on doubles. -/
def oracle_scaled (g : Nat → Nat) (mode : Str) : Except OracleError OracleOutcome :=
  match ORACLE_THRESHOLDS.lookup mode with
  | none => .error (.unknownMode mode)
  | some (left, center, right) =>
    let r := 1 + g 0 % 100
    let result := if r < center then YesNo.yes else YesNo.no
    let exceptional :=
      if r < center then (if r ≤ left then some Exceptional.exYes else none)
      else (if right ≤ r then some Exceptional.exNo else none)
    .ok { roll := r, result := result, exceptional := exceptional,
          random_event := is_doubles r, thresholds := (left, center, right) }

/-!
## Spark tables (`src/roll.py` lines 114–215)
-/

/-- A spark table: two column labels and the ordered list of row pairs. -/
structure Table where
  columns : Str × Str
  rows : List (Str × Str)
deriving DecidableEq, Repr

/-- The spark catalog: sheet name → table name → table, in insertion order
(Python dicts preserve insertion order). -/
abbrev Catalog := List (Str × List (Str × Table))

/-- `_norm` (`src/roll.py` lines 114–116): NFKD-decompose, drop the
non-ASCII remainder, strip all whitespace, lowercase. NFKD decomposition is
modelled as the identity, which is exact for ASCII input (NFKD fixes every
ASCII string); non-ASCII code points are dropped as in
`encode("ascii", "ignore")`. -/
def pyNorm (s : Str) : Str :=
  ((s.filter (fun c => c.toNat ≤ 127)).filter (fun c => !isAsciiWs c)).map Char.toLower

/-- `dict.setdefault(k, v)` on the sheet dict: insert at the end only if the
key is absent. -/
def setdefault (k : Str) (v : List (Str × Table)) (l : Catalog) : Catalog :=
  if l.any (fun p => p.1 = k) then l else l ++ [(k, v)]

/-- `d[k] = v` on a table dict: replace in place if present, else append. -/
def upsert (k : Str) (v : Table) : List (Str × Table) → List (Str × Table)
  | [] => [(k, v)]
  | (k', v') :: rest => if k' = k then (k, v) :: rest else (k', v') :: upsert k v rest

/-- `sheets[cs][tn] = tbl`: update the (present) sheet `cs`, upserting the
table. The `[]` case is unreachable in the loader, which always inserts the
current sheet before updating it. -/
def updateSheet (cs : Str) (tn : Str) (tbl : Table) : Catalog → Catalog
  | [] => []
  | (s, ts) :: rest =>
    if s = cs then (s, upsert tn tbl ts) :: rest
    else (s, ts) :: updateSheet cs tn tbl rest

/-- The inner row-collection loop of `load_spark`: take rows while the line
splits into ≥ 3 fields with a digit-string first field; return the collected
(field 1, field 2) pairs and the unconsumed remainder. -/
def takeRows : List Str → List (Str × Str) × List Str
  | [] => ([], [])
  | line :: rest =>
    let row := splitStrip line
    if 3 ≤ row.length ∧ isDigits (row.getD 0 []) = true then
      let p := takeRows rest
      ((row.getD 1 [], row.getD 2 []) :: p.1, p.2)
    else ([], line :: rest)

/-- The line loop of `load_spark` (`src/roll.py` lines 126–175), with fuel
(each step consumes at least one line). A line with `:` but no `;` is a sheet
header; a line with ≥ 2 `;` splitting as `"" ; name ; ""` is a table header,
whose following line supplies the column labels (default `Col1`/`Col2`) and
whose subsequent digit-prefixed lines are rows; other lines are skipped. -/
def loadLoopFuel : Nat → List Str → Option Str → Catalog → Catalog
  | 0, _, _, sheets => sheets
  | _ + 1, [], _, sheets => sheets
  | fuel + 1, line :: rest, cur, sheets =>
    let raw := strip line
    if ':' ∈ raw ∧ ';' ∉ raw then
      let sheetName := strip (raw.takeWhile (fun c => !(c == ':')))
      loadLoopFuel fuel rest (some sheetName) (setdefault sheetName [] sheets)
    else if 2 ≤ raw.count ';' then
      let parts := splitStrip raw
      if 3 ≤ parts.length ∧ parts.getD 0 [] = [] ∧ ¬ parts.getD 1 [] = [] ∧
          parts.getD 2 [] = [] then
        let tableName := parts.getD 1 []
        let cols :=
          match rest with
          | hdr :: _ =>
            let h := splitStrip hdr
            if 3 ≤ h.length then (h.getD 1 [], h.getD 2 [])
            else ("Col1".toList, "Col2".toList)
          | [] => ("Col1".toList, "Col2".toList)
        let tr := takeRows (rest.drop 1)
        let cs := match cur with | none => "UNKNOWN".toList | some c => c
        let sheets1 := match cur with
          | none => setdefault "UNKNOWN".toList [] sheets
          | some _ => sheets
        loadLoopFuel fuel tr.2 (some cs) (updateSheet cs tableName ⟨cols, tr.1⟩ sheets1)
      else loadLoopFuel fuel rest cur sheets
    else loadLoopFuel fuel rest cur sheets

/-- `load_spark` on the delimited text form (`src/roll.py` lines 126–175),
taking the file's lines (newlines already removed). The JSON branch and the
file-existence check of lines 118–124 are I/O glue outside this model. -/
def load_spark (lines : List Str) : Catalog := loadLoopFuel lines.length lines none []

/-- Lexicographic (code-point) comparison of strings, the order Python's
`sorted` uses on `str`. -/
def strLeB : Str → Str → Bool
  | [], _ => true
  | _ :: _, [] => false
  | a :: as, b :: bs =>
    if a.toNat < b.toNat then true
    else if b.toNat < a.toNat then false
    else strLeB as bs

/-- Insertion step of `sorted`. -/
def insertName (x : Str) : List Str → List Str
  | [] => [x]
  | y :: ys => if strLeB x y then x :: y :: ys else y :: insertName x ys

/-- Python `sorted` on a list of strings (insertion sort; stable, total). -/
def sortNames : List Str → List Str
  | [] => []
  | x :: xs => insertName x (sortNames xs)

/-- `list_spark` (`src/roll.py` lines 177–181): one entry per sheet, in
catalog order, each carrying the sheet's table names sorted
(`sorted(tables.keys())`). The `"- sheet: a, b"` string formatting is
modelled structurally. -/
def list_spark (c : Catalog) : List (Str × List Str) :=
  c.map (fun st => (st.1, sortNames (st.2.map Prod.fst)))

/-- `needle.isPrefixOf`-style check used by `strContains`. -/
def startsWithStr : Str → Str → Bool
  | [], _ => true
  | _ :: _, [] => false
  | a :: as, b :: bs => a == b && startsWithStr as bs

/-- Python `needle in hay` on strings: substring containment. -/
def strContains (needle : Str) : Str → Bool
  | [] => startsWithStr needle []
  | c :: t => startsWithStr needle (c :: t) || strContains needle t

inductive SelError where
  | noMatch (name : Str)
  | emptyChoice
deriving DecidableEq, Repr

/-- `random.choice(list(tables.keys()))` followed by `tables[table_name]`:
pick a uniform entry of the sheet's table dict; `random.choice` on an empty
sequence raises (modelled as `emptyChoice`). -/
def chooseFrom (g : Nat → Nat) (sheet : Str) (tables : List (Str × Table)) :
    Except SelError (Str × Str × Table) :=
  match tables[g 0 % tables.length]? with
  | some t => .ok (sheet, t.1, t.2)
  | none => .error .emptyChoice

/-- First loop of `select_table`: exact match on normalized sheet names. -/
def exactSheetLoop (g : Nat → Nat) (key : Str) :
    Catalog → Option (Except SelError (Str × Str × Table))
  | [] => none
  | (sheet, tables) :: rest =>
    if pyNorm sheet = key then some (chooseFrom g sheet tables)
    else exactSheetLoop g key rest

/-- Inner loop of the second loop of `select_table`: exact match on the
normalized table names of one sheet. -/
def tableScan (key : Str) (sheet : Str) : List (Str × Table) → Option (Str × Str × Table)
  | [] => none
  | (tn, tbl) :: rest =>
    if pyNorm tn = key then some (sheet, tn, tbl) else tableScan key sheet rest

/-- Second loop of `select_table`: exact match on normalized table names,
sheet by sheet. -/
def exactTableLoop (key : Str) : Catalog → Option (Str × Str × Table)
  | [] => none
  | (sheet, tables) :: rest =>
    match tableScan key sheet tables with
    | some r => some r
    | none => exactTableLoop key rest

/-- Inner loop of the third loop of `select_table`: substring match on the
normalized table names of one sheet. -/
def fuzzyTableScan (key : Str) (sheet : Str) :
    List (Str × Table) → Option (Str × Str × Table)
  | [] => none
  | (tn, tbl) :: rest =>
    if strContains key (pyNorm tn) then some (sheet, tn, tbl)
    else fuzzyTableScan key sheet rest

/-- Third loop of `select_table`: for each sheet in order, first a substring
match on the sheet name, then substring matches on that sheet's table names. -/
def fuzzyLoop (g : Nat → Nat) (key : Str) :
    Catalog → Option (Except SelError (Str × Str × Table))
  | [] => none
  | (sheet, tables) :: rest =>
    if strContains key (pyNorm sheet) then some (chooseFrom g sheet tables)
    else
      match fuzzyTableScan key sheet tables with
      | some r => some (.ok r)
      | none => fuzzyLoop g key rest

/-- `select_table` (`src/roll.py` lines 183–200): normalize the query, then run
the three loops in order; fail with a no-match error naming the input. -/
def select_table (g : Nat → Nat) (data : Catalog) (name : Str) :
    Except SelError (Str × Str × Table) :=
  let key := pyNorm name
  match exactSheetLoop g key data with
  | some r => r
  | none =>
    match exactTableLoop key data with
    | some r => .ok r
    | none =>
      match fuzzyLoop g key data with
      | some r => r
      | none => .error (.noMatch name)

/-- Spec-side phase 1 (exact sheet match) as a single full-catalog search. -/
def selectPhase1 (g : Nat → Nat) (key : Str) (data : Catalog) :
    Option (Except SelError (Str × Str × Table)) :=
  (data.find? (fun st => pyNorm st.1 = key)).map (fun st => chooseFrom g st.1 st.2)

/-- Spec-side phase 2 (exact table match) as a single search of the
flattened catalog. -/
def selectPhase2 (key : Str) (data : Catalog) : Option (Str × Str × Table) :=
  (data.flatMap (fun st => st.2.map (fun t => (st.1, t.1, t.2)))).find?
    (fun r => pyNorm r.2.1 = key)

/-- The fuzzy candidates one sheet contributes, in the order the code tries
them: the sheet itself (on a sheet-name substring hit) and then its tables
(on table-name substring hits). -/
def fuzzyCandidates (g : Nat → Nat) (key : Str) (st : Str × List (Str × Table)) :
    List (Except SelError (Str × Str × Table)) :=
  (if strContains key (pyNorm st.1) then [chooseFrom g st.1 st.2] else []) ++
    st.2.filterMap (fun t =>
      if strContains key (pyNorm t.1) then some (.ok (st.1, t.1, t.2)) else none)

/-- Spec-side combined fuzzy phase: the first fuzzy candidate over the whole
catalog, sheets in order, each sheet's own name tried before its tables. -/
def selectPhase34 (g : Nat → Nat) (key : Str) (data : Catalog) :
    Option (Except SelError (Str × Str × Table)) :=
  (data.flatMap (fuzzyCandidates g key)).head?

/-- The selection procedure phrased as ordered phases (the amended reading of
the spec's matching order). -/
def selectTableSpec (g : Nat → Nat) (data : Catalog) (name : Str) :
    Except SelError (Str × Str × Table) :=
  let key := pyNorm name
  match selectPhase1 g key data with
  | some r => r
  | none =>
    match selectPhase2 key data with
    | some r => .ok r
    | none =>
      match selectPhase34 g key data with
      | some r => r
      | none => .error (.noMatch name)

inductive SparkError where
  | tooFewRows
deriving DecidableEq, Repr

/-- `roll_spark` (`src/roll.py` lines 202–215): require ≥ 12 rows, draw two
d12, pick column 1 of the first indexed row and column 2 of the second
(1-based indices). -/
def roll_spark (g : Nat → Nat) (t : Table) :
    Except SparkError ((Nat × Nat) × (Str × Str)) :=
  if t.rows.length < 12 then .error .tooFewRows
  else
    let r1 := 1 + g 0 % 12
    let r2 := 1 + g 1 % 12
    .ok ((r1, r2), ((t.rows.getD (r1 - 1) ([], [])).1, (t.rows.getD (r2 - 1) ([], [])).2))

/-- A delimited spark file with one sheet header, one table header, one
column-label line and 12 data rows with fields `d i ; a i ; b i`. -/
def sparkSampleFile (S T c1 c2 : Str) (d a b : Nat → Str) : List Str :=
  [S ++ [':'], ';' :: (T ++ [';']), ';' :: (c1 ++ ';' :: c2)] ++
    (List.range 12).map (fun i => d i ++ ';' :: (a i ++ ';' :: b i))

/-!
## Lemmas about the token scanner
-/

theorem takeDigits_append (l : Str) : (takeDigits l).1 ++ (takeDigits l).2 = l := by
  induction l with
  | nil => rfl
  | cons c cs ih =>
    simp only [takeDigits]
    split
    · simpa using ih
    · rfl

theorem takeDigits_digits (l : Str) : ∀ c ∈ (takeDigits l).1, c.isDigit = true := by
  induction l with
  | nil => simp [takeDigits]
  | cons c cs ih =>
    simp only [takeDigits]
    split
    · rename_i h
      intro x hx
      rcases List.mem_cons.mp hx with rfl | hx
      · exact h
      · exact ih x hx
    · simp

theorem takeDigits_eq_of_digits (x y : Str) (hx : ∀ c ∈ x, c.isDigit = true)
    (hy : y = [] ∨ ∃ c r, y = c :: r ∧ c.isDigit = false) :
    takeDigits (x ++ y) = (x, y) := by
  induction x with
  | nil =>
    rcases hy with rfl | ⟨c, r, rfl, hc⟩
    · rfl
    · simp [takeDigits, hc]
  | cons a as ih =>
    have ha : a.isDigit = true := hx a (List.mem_cons_self a as)
    have := ih (fun c hc => hx c (List.mem_cons_of_mem a hc))
    simp [takeDigits, ha, this]

theorem digit_ne_dash (c : Char) (h : c.isDigit = true) : ¬ c = '-' := by
  rintro rfl; exact absurd h (by decide)

theorem digit_ne_plus (c : Char) (h : c.isDigit = true) : ¬ c = '+' := by
  rintro rfl; exact absurd h (by decide)

theorem matchCore_goodBody (l m r : Str) (h : matchCore l = some (m, r)) : goodBody m := by
  simp only [matchCore] at h
  split at h
  · rename_i rest2 hrest
    split at h
    · split at h
      · exact absurd h (by simp)
      · rename_i hq hp
        simp only [Option.some.injEq, Prod.mk.injEq] at h
        refine Or.inr ⟨?_, ?_⟩
        · rw [← h.1]; exact hp
        · rw [← h.1]; exact takeDigits_digits l
    · rename_i hq
      simp only [Option.some.injEq, Prod.mk.injEq] at h
      refine Or.inl ⟨(takeDigits l).1, (takeDigits rest2).1, ?_, ?_, hq, ?_⟩
      · rw [← h.1]
      · exact takeDigits_digits l
      · exact takeDigits_digits rest2
  · rename_i hrest
    split at h
    · exact absurd h (by simp)
    · rename_i hp
      simp only [Option.some.injEq, Prod.mk.injEq] at h
      exact Or.inr ⟨h.1 ▸ hp, h.1 ▸ takeDigits_digits l⟩

theorem stripSign_of_goodBody (m : Str) (h : goodBody m) : stripSign m = (1, m) := by
  rcases h with ⟨ds, ds2, rfl, hds, _, _⟩ | ⟨hne, hall⟩
  · cases ds with
    | nil => simp [stripSign]
    | cons a as =>
      have ha := hds a (List.mem_cons_self a as)
      simp [stripSign, digit_ne_dash a ha, digit_ne_plus a ha]
  · cases m with
    | nil => exact absurd rfl hne
    | cons a as =>
      have ha := hall a (List.mem_cons_self a as)
      simp [stripSign, digit_ne_dash a ha, digit_ne_plus a ha]

theorem stripSign_pm (t : Str) : (stripSign t).1 = 1 ∨ (stripSign t).1 = -1 := by
  cases t with
  | nil => left; rfl
  | cons c cs =>
    simp only [stripSign]
    split
    · right; rfl
    · split <;> left <;> rfl

theorem matchAt_goodToken (l m r : Str) (h : matchAt l = some (m, r)) :
    goodBody (stripSign m).2 := by
  cases l with
  | nil => exact absurd h (by simp [matchAt])
  | cons c cs =>
    simp only [matchAt] at h
    split at h
    · rename_i hc
      cases hm : matchCore cs with
      | none => rw [hm] at h; exact absurd h (by simp)
      | some p =>
        obtain ⟨m0, r0⟩ := p
        rw [hm] at h
        simp only [Option.some.injEq, Prod.mk.injEq] at h
        have hg := matchCore_goodBody cs m0 r0 hm
        rw [← h.1]
        rcases hc with rfl | rfl
        · simpa [stripSign] using hg
        · simpa [stripSign] using hg
    · have hg := matchCore_goodBody (c :: cs) m r h
      rw [stripSign_of_goodBody m hg]
      exact hg

theorem scanFuel_good (fuel : Nat) :
    ∀ l : Str, ∀ m ∈ scanFuel fuel l, goodBody (stripSign m).2 := by
  induction fuel with
  | zero => intro l m hm; exact absurd hm (by simp [scanFuel])
  | succ fuel ih =>
    intro l m hm
    cases l with
    | nil => exact absurd hm (by simp [scanFuel])
    | cons c cs =>
      rw [scanFuel] at hm
      cases hma : matchAt (c :: cs) with
      | none => rw [hma] at hm; exact ih cs m hm
      | some p =>
        obtain ⟨m0, r⟩ := p
        rw [hma] at hm
        rcases List.mem_cons.mp hm with rfl | hm
        · exact matchAt_goodToken (c :: cs) m r hma
        · exact ih r m hm

theorem parseDice_of_dice_shape (ds ds2 : Str) (hds : ∀ c ∈ ds, c.isDigit = true)
    (hne : ds2 ≠ []) (hds2 : ∀ c ∈ ds2, c.isDigit = true) :
    parseDice (ds ++ 'd' :: ds2) =
      some ((if ds = [] then 1 else digitsToNat ds), digitsToNat ds2) := by
  have h1 : takeDigits (ds ++ 'd' :: ds2) = (ds, 'd' :: ds2) :=
    takeDigits_eq_of_digits ds ('d' :: ds2) hds (Or.inr ⟨'d', ds2, rfl, by decide⟩)
  have h2 : takeDigits ds2 = (ds2, []) := by
    have := takeDigits_eq_of_digits ds2 [] hds2 (Or.inl rfl)
    rwa [List.append_nil] at this
  simp only [parseDice]
  rw [h1]
  simp [h2, hne]

theorem isDigits_of_digits (l : Str) (hne : l ≠ []) (h : ∀ c ∈ l, c.isDigit = true) :
    isDigits l = true := by
  simp only [isDigits, Bool.and_eq_true, List.all_eq_true]
  exact ⟨by simpa using hne, fun c hc => h c hc⟩

theorem evalToken_good_error (g : Nat → Nat) (k : Nat) (t : Str) (e : RollError)
    (hg : goodBody (stripSign t).2) (h : evalToken g k t = .error e) :
    e = .nonPositiveDice := by
  simp only [evalToken] at h
  cases hp : parseDice (stripSign t).2 with
  | some p =>
    obtain ⟨num, sides⟩ := p
    simp only [hp] at h
    split at h
    · simpa using h.symm
    · exact absurd h (by simp)
  | none =>
    simp only [hp] at h
    rcases hg with ⟨ds, ds2, hb, hds, hne, hds2⟩ | ⟨hne, hall⟩
    · rw [hb, parseDice_of_dice_shape ds ds2 hds hne hds2] at hp
      exact absurd hp (by simp)
    · rw [isDigits_of_digits _ hne hall] at h
      exact absurd h (by simp)

theorem evalToken_error_shape (g : Nat → Nat) (k : Nat) (t : Str) (e : RollError)
    (h : evalToken g k t = .error e) :
    e = .nonPositiveDice ∨ ∃ u, e = .invalidToken u := by
  simp only [evalToken] at h
  cases hp : parseDice (stripSign t).2 with
  | some p =>
    obtain ⟨num, sides⟩ := p
    simp only [hp] at h
    split at h
    · exact Or.inl (by simpa using h.symm)
    · exact absurd h (by simp)
  | none =>
    simp only [hp] at h
    split at h
    · exact absurd h (by simp)
    · exact Or.inr ⟨t, by simpa using h.symm⟩

theorem evalTokens_good_error (g : Nat → Nat) (ts : List Str) :
    ∀ (k : Nat) (tot : Int) (ds : List Detail) (e : RollError),
      (∀ t ∈ ts, goodBody (stripSign t).2) →
      evalTokens g ts k tot ds = .error e → e = .nonPositiveDice := by
  induction ts with
  | nil => intro k tot ds e _ h; exact absurd h (by simp [evalTokens])
  | cons t ts ih =>
    intro k tot ds e hgood h
    rw [evalTokens] at h
    cases he : evalToken g k t with
    | error e' =>
      rw [he] at h
      simp only [Except.error.injEq] at h
      exact h ▸ evalToken_good_error g k t e' (hgood t (List.mem_cons_self t ts)) he
    | ok v =>
      obtain ⟨sub, d, k2⟩ := v
      rw [he] at h
      exact ih k2 (tot + sub) (ds ++ [d]) e
        (fun u hu => hgood u (List.mem_cons_of_mem t hu)) h

theorem evalTokens_error_shape (g : Nat → Nat) (ts : List Str) :
    ∀ (k : Nat) (tot : Int) (ds : List Detail) (e : RollError),
      evalTokens g ts k tot ds = .error e →
      e = .nonPositiveDice ∨ ∃ u, e = .invalidToken u := by
  induction ts with
  | nil => intro k tot ds e h; exact absurd h (by simp [evalTokens])
  | cons t ts ih =>
    intro k tot ds e h
    rw [evalTokens] at h
    cases he : evalToken g k t with
    | error e' =>
      rw [he] at h
      simp only [Except.error.injEq] at h
      exact h ▸ evalToken_error_shape g k t e' he
    | ok v =>
      obtain ⟨sub, d, k2⟩ := v
      rw [he] at h
      exact ih k2 (tot + sub) (ds ++ [d]) e h

theorem sum_bounds (sd : Nat) (rl : List Nat) (h : ∀ x ∈ rl, 1 ≤ x ∧ x ≤ sd) :
    rl.length ≤ rl.sum ∧ rl.sum ≤ rl.length * sd := by
  induction rl with
  | nil => simp
  | cons a as ih =>
    have ha := h a (List.mem_cons_self a as)
    have ih2 := ih (fun x hx => h x (List.mem_cons_of_mem a hx))
    simp only [List.length_cons, List.sum_cons]
    constructor
    · rw [Nat.add_comm as.length 1]
      exact Nat.add_le_add ha.1 ih2.1
    · rw [Nat.succ_mul, Nat.add_comm (as.length * sd) sd]
      exact Nat.add_le_add ha.2 ih2.2

theorem evalToken_ok_spec (g : Nat → Nat) (k : Nat) (t : Str) (sub : Int) (d : Detail)
    (k2 : Nat) (h : evalToken g k t = .ok (sub, d, k2)) :
    sub = detailSub d ∧ diceOk d := by
  simp only [evalToken] at h
  cases hp : parseDice (stripSign t).2 with
  | some p =>
    obtain ⟨num, sides⟩ := p
    simp only [hp] at h
    split at h
    · exact absurd h (by simp)
    · rename_i hcond
      simp only [Except.ok.injEq, Prod.mk.injEq] at h
      obtain ⟨hsub, hd, -⟩ := h
      subst hd
      subst hsub
      refine ⟨rfl, stripSign_pm t, by omega, by omega, by simp, ?_⟩
      intro x hx
      simp only [List.mem_map, List.mem_range] at hx
      obtain ⟨j, -, rfl⟩ := hx
      have hpos : 0 < sides := by omega
      have := Nat.mod_lt (g (k + j)) hpos
      omega
  | none =>
    simp only [hp] at h
    split at h
    · simp only [Except.ok.injEq, Prod.mk.injEq] at h
      obtain ⟨hsub, hd, -⟩ := h
      subst hd
      subst hsub
      exact ⟨rfl, stripSign_pm t⟩
    · exact absurd h (by simp)

theorem evalTokens_ok_spec (g : Nat → Nat) (ts : List Str) :
    ∀ (k : Nat) (tot : Int) (ds : List Detail) (T : Int) (D : List Detail),
      evalTokens g ts k tot ds = .ok (T, D) →
      ∃ D2, D = ds ++ D2 ∧ T = tot + (D2.map detailSub).sum ∧ ∀ d ∈ D2, diceOk d := by
  induction ts with
  | nil =>
    intro k tot ds T D h
    simp only [evalTokens, Except.ok.injEq, Prod.mk.injEq] at h
    exact ⟨[], by simp [h.2.symm], by simp [h.1.symm], by simp⟩
  | cons t ts ih =>
    intro k tot ds T D h
    rw [evalTokens] at h
    cases he : evalToken g k t with
    | error e => rw [he] at h; exact absurd h (by simp)
    | ok v =>
      obtain ⟨sub, d, k2⟩ := v
      rw [he] at h
      obtain ⟨D2, hD, hT, hok⟩ := ih k2 (tot + sub) (ds ++ [d]) T D h
      obtain ⟨hsub, hd⟩ := evalToken_ok_spec g k t sub d k2 he
      refine ⟨d :: D2, ?_, ?_, ?_⟩
      · rw [hD, List.append_assoc]
        rfl
      · rw [hT, hsub, List.map_cons, List.sum_cons, add_assoc]
      · intro x hx
        rcases List.mem_cons.mp hx with rfl | hx
        · exact hd
        · exact hok x hx

/-!
## Claims about the dice evaluator
-/

/-- C1: for every input whose evaluation succeeds, the returned total equals
the sum of the signed subtotals of all breakdown entries, and each dice
entry's signed contribution lies between `sign*count*1` and
`sign*count*sides`. -/
theorem C1_total_is_signed_sum_and_dice_bounded (g : Nat → Nat) (expr : Str)
    (total : Int) (ds : List Detail)
    (h : roll_expression g expr = .ok (total, ds)) :
    total = (ds.map detailSub).sum ∧
    ∀ (s : Int) (n sd : Nat) (rl : List Nat), Detail.dice s n sd rl ∈ ds →
      min (s * (n : Int)) (s * ((n : Int) * sd)) ≤ detailSub (.dice s n sd rl) ∧
      detailSub (.dice s n sd rl) ≤ max (s * (n : Int)) (s * ((n : Int) * sd)) := by
  simp only [roll_expression] at h
  split at h
  · exact absurd h (by simp)
  · obtain ⟨D2, hD, hT, hok⟩ := evalTokens_ok_spec g _ 0 0 [] total ds h
    simp only [List.nil_append] at hD
    subst hD
    constructor
    · simpa using hT
    · intro s n sd rl hmem
      obtain ⟨hs, hsd, hn, hlen, hbd⟩ := hok _ hmem
      have hsum := sum_bounds sd rl hbd
      rw [hlen] at hsum
      have h1 : (n : Int) ≤ (rl.sum : Int) := by exact_mod_cast hsum.1
      have h2 : (rl.sum : Int) ≤ (n : Int) * sd := by exact_mod_cast hsum.2
      have h3 : (n : Int) ≤ (n : Int) * sd := le_trans h1 h2
      rcases hs with rfl | rfl
      · simp only [detailSub, one_mul]
        rw [min_eq_left h3, max_eq_right h3]
        exact ⟨h1, h2⟩
      · simp only [detailSub, neg_one_mul]
        rw [min_neg_neg, max_neg_neg, max_eq_right h3, min_eq_left h3]
        exact ⟨neg_le_neg h2, neg_le_neg h1⟩

/-- C1 witness: `2d6+3` with the all-ones stream evaluates to total 5 with
breakdown `+2d6=[1,1] | +3`, and the theorem's conclusions hold there. -/
theorem C1_witness :
    roll_expression (fun _ => 0) (String.toList "2d6+3") =
      .ok (5, [Detail.dice 1 2 6 [1, 1], Detail.const 1 3]) ∧
    (5 : Int) = ([Detail.dice 1 2 6 [1, 1], Detail.const 1 3].map detailSub).sum ∧
    detailSub (Detail.dice 1 2 6 [1, 1]) ≤
      max ((1 : Int) * (2 : Nat)) ((1 : Int) * (((2 : Nat) : Int) * (6 : Nat))) := by
  have h := C1_total_is_signed_sum_and_dice_bounded (fun _ => 0) (String.toList "2d6+3") 5
    [Detail.dice 1 2 6 [1, 1], Detail.const 1 3] rfl
  exact ⟨rfl, h.1, (h.2 1 2 6 [1, 1] (by simp)).2⟩

/-- C4 counterexample: contrary to the claim, `-1d6` does not raise: the
leading `-` is parsed as the term's sign, so it evaluates to minus one d6
(here with the all-ones stream, to total `-1`). -/
theorem C4_counterexample :
    roll_expression (fun _ => 0) (String.toList "-1d6") =
      .ok (-1, [Detail.dice (-1) 1 6 [1]]) := by rfl

/-- C4 (amended): `0d6` and `d0` fail with the non-positive-dice error, but
`-1d6` succeeds for every stream: its `-` is a sign, giving count 1, sides 6,
subtracted from the total. -/
theorem C4_amended_zero_rejected_minus_is_sign (g : Nat → Nat) :
    roll_expression g (String.toList "0d6") = .error .nonPositiveDice ∧
    roll_expression g (String.toList "d0") = .error .nonPositiveDice ∧
    roll_expression g (String.toList "-1d6") =
      .ok (-(((1 + g 0 % 6 : Nat) : Int)), [Detail.dice (-1) 1 6 [1 + g 0 % 6]]) := by
  refine ⟨rfl, rfl, ?_⟩
  have h : roll_expression g (String.toList "-1d6") =
      .ok ((0 : Int) + -1 * (((1 + g 0 % 6 : Nat) : Int)),
        [Detail.dice (-1) 1 6 [1 + g 0 % 6]]) := rfl
  rw [h]
  norm_num

/-- C7: `roll_expression` fails with the invalid-expression error exactly
when the scan finds zero tokens; with at least one token found, non-token
characters are skipped and this error cannot arise. `abc` is such a
zero-token input. -/
theorem C7_invalid_expression_iff_no_tokens (g : Nat → Nat) (expr : Str) :
    (roll_expression g expr = .error .invalidExpression ↔
      findall (preprocess expr) = []) ∧
    roll_expression g (String.toList "abc") = .error .invalidExpression := by
  refine ⟨?_, rfl⟩
  simp only [roll_expression]
  split
  · rename_i h
    simp [h]
  · rename_i h
    constructor
    · intro hev
      have := evalTokens_good_error g (findall (preprocess expr)) 0 0 [] .invalidExpression
        (fun t ht => scanFuel_good _ _ t ht) hev
      exact absurd this (by simp)
    · intro hempty
      exact absurd hempty h

/-- C9: `d20` and `1d20` evaluate identically under every stream of draws:
the omitted count defaults to 1, so totals and breakdowns coincide. -/
theorem C9_d20_equiv_1d20 (g : Nat → Nat) :
    roll_expression g (String.toList "d20") = roll_expression g (String.toList "1d20") := rfl

/-- C10: `roll_expression` never returns the `Invalid token` error on any
input: every scanned token, after sign stripping, is a dice term or a pure
digit string, so the final rejection branch is unreachable. -/
theorem C10_invalid_token_unreachable (g : Nat → Nat) (expr : Str) :
    isInvalidTokenErr (roll_expression g expr) = false := by
  simp only [roll_expression]
  split
  · rfl
  · cases hev : evalTokens g (findall (preprocess expr)) 0 0 [] with
    | ok v => rfl
    | error e =>
      have he := evalTokens_good_error g (findall (preprocess expr)) 0 0 [] e
        (fun t ht => scanFuel_good _ _ t ht) hev
      rw [he]
      rfl

/-!
## Claims about the scaled oracle
-/

/-- C5: for the "50/50" profile with thresholds (10, 50, 91): a d100 roll of
5 is an exceptional YES, a roll of exactly 50 is a plain NO (not
exceptional), a roll of 95 is an exceptional NO, and for every stream the
random-event flag is set exactly when the roll lies in [10, 99] and is
divisible by 11, regardless of the YES/NO outcome. -/
theorem C5_oracle_50_50 :
    oracle_scaled (fun _ => 4) (String.toList "o") =
      .ok ⟨5, .yes, some .exYes, false, (10, 50, 91)⟩ ∧
    oracle_scaled (fun _ => 49) (String.toList "o") =
      .ok ⟨50, .no, none, false, (10, 50, 91)⟩ ∧
    oracle_scaled (fun _ => 94) (String.toList "o") =
      .ok ⟨95, .no, some .exNo, false, (10, 50, 91)⟩ ∧
    ∀ (g : Nat → Nat) (res : OracleOutcome),
      oracle_scaled g (String.toList "o") = .ok res →
      (res.random_event = true ↔ 10 ≤ res.roll ∧ res.roll ≤ 99 ∧ res.roll % 11 = 0) := by
  refine ⟨rfl, rfl, rfl, ?_⟩
  intro g res h
  have h2 : oracle_scaled g (String.toList "o") = .ok
      { roll := 1 + g 0 % 100,
        result := if 1 + g 0 % 100 < 50 then YesNo.yes else YesNo.no,
        exceptional :=
          if 1 + g 0 % 100 < 50 then
            (if 1 + g 0 % 100 ≤ 10 then some Exceptional.exYes else none)
          else (if 91 ≤ 1 + g 0 % 100 then some Exceptional.exNo else none),
        random_event := is_doubles (1 + g 0 % 100),
        thresholds := (10, 50, 91) } := rfl
  rw [h2] at h
  injection h with h
  subst h
  simp only [is_doubles, Bool.and_eq_true, decide_eq_true_eq, beq_iff_eq]
  tauto

/-- C5 witness: a roll of 22 (YES branch) has the random-event flag set, by
the random-event clause of the theorem at the constant-21 stream. -/
theorem C5_witness :
    (OracleOutcome.mk 22 YesNo.yes none true (10, 50, 91)).random_event = true := by
  have h := C5_oracle_50_50.2.2.2 (fun _ => 21)
    (OracleOutcome.mk 22 YesNo.yes none true (10, 50, 91)) rfl
  exact h.mpr (by decide)

/-!
## Lemmas about sorting and listing
-/

theorem insertName_perm (x : Str) (l : List Str) : (insertName x l).Perm (x :: l) := by
  induction l with
  | nil => exact List.Perm.refl _
  | cons y ys ih =>
    simp only [insertName]
    split
    · exact List.Perm.refl _
    · exact (List.Perm.cons y ih).trans (List.Perm.swap x y ys)

theorem sortNames_perm (l : List Str) : (sortNames l).Perm l := by
  induction l with
  | nil => exact List.Perm.refl _
  | cons x xs ih => exact (insertName_perm x (sortNames xs)).trans (List.Perm.cons x ih)

theorem strLeB_cons (x y : Char) (xs ys : Str) :
    strLeB (x :: xs) (y :: ys) = true ↔
      x.toNat < y.toNat ∨ (x.toNat = y.toNat ∧ strLeB xs ys = true) := by
  simp only [strLeB]
  split
  · rename_i h; simp [h]
  · split
    · rename_i h1 h2
      refine iff_of_false (by simp) ?_
      rintro (h | ⟨h, -⟩) <;> omega
    · rename_i h1 h2
      have : x.toNat = y.toNat := by omega
      simp [this]

theorem strLeB_total (a b : Str) : strLeB a b = true ∨ strLeB b a = true := by
  induction a generalizing b with
  | nil => left; rfl
  | cons x xs ih =>
    cases b with
    | nil => right; rfl
    | cons y ys =>
      rcases Nat.lt_trichotomy x.toNat y.toNat with h | h | h
      · left; exact (strLeB_cons x y xs ys).mpr (Or.inl h)
      · rcases ih ys with h2 | h2
        · left; exact (strLeB_cons x y xs ys).mpr (Or.inr ⟨h, h2⟩)
        · right; exact (strLeB_cons y x ys xs).mpr (Or.inr ⟨h.symm, h2⟩)
      · right; exact (strLeB_cons y x ys xs).mpr (Or.inl h)

theorem strLeB_trans (a b c : Str) (h1 : strLeB a b = true) (h2 : strLeB b c = true) :
    strLeB a c = true := by
  induction a generalizing b c with
  | nil => rfl
  | cons x xs ih =>
    cases b with
    | nil => exact absurd h1 (by simp [strLeB])
    | cons y ys =>
      cases c with
      | nil => exact absurd h2 (by simp [strLeB])
      | cons z zs =>
        rcases (strLeB_cons x y xs ys).mp h1 with hxy | ⟨hxy, hr1⟩ <;>
          rcases (strLeB_cons y z ys zs).mp h2 with hyz | ⟨hyz, hr2⟩
        · exact (strLeB_cons x z xs zs).mpr (Or.inl (by omega))
        · exact (strLeB_cons x z xs zs).mpr (Or.inl (by omega))
        · exact (strLeB_cons x z xs zs).mpr (Or.inl (by omega))
        · exact (strLeB_cons x z xs zs).mpr (Or.inr ⟨by omega, ih ys zs hr1 hr2⟩)

theorem pairwise_insertName (x : Str) (l : List Str)
    (h : l.Pairwise (fun a b => strLeB a b = true)) :
    (insertName x l).Pairwise (fun a b => strLeB a b = true) := by
  induction l with
  | nil => simp [insertName]
  | cons y ys ih =>
    obtain ⟨hy, hys⟩ := List.pairwise_cons.mp h
    simp only [insertName]
    split
    · rename_i hxy
      refine List.pairwise_cons.mpr ⟨?_, h⟩
      intro z hz
      rcases List.mem_cons.mp hz with rfl | hz
      · exact hxy
      · exact strLeB_trans x y z hxy (hy z hz)
    · rename_i hxy
      have hyx : strLeB y x = true := by
        rcases strLeB_total x y with h1 | h1
        · exact absurd h1 hxy
        · exact h1
      refine List.pairwise_cons.mpr ⟨?_, ih hys⟩
      intro z hz
      rcases List.mem_cons.mp ((insertName_perm x ys).mem_iff.mp hz) with rfl | hz2
      · exact hyx
      · exact hy z hz2

theorem sortNames_pairwise (l : List Str) :
    (sortNames l).Pairwise (fun a b => strLeB a b = true) := by
  induction l with
  | nil => simp [sortNames]
  | cons x xs ih => exact pairwise_insertName x (sortNames xs) ih

/-!
## Claims about listing and rolling spark tables
-/

/-- C6: rolling a table with fewer than 12 rows fails with the precondition
error; any table in any catalog still appears (by name, under its sheet) in
the listing; and rolling a table with at least 12 rows never raises this
error — it returns the two indices and picks directly. -/
theorem C6_twelve_row_precondition :
    (∀ (g : Nat → Nat) (t : Table), t.rows.length < 12 →
      roll_spark g t = .error .tooFewRows) ∧
    (∀ (cat : Catalog) (sheet : Str) (tables : List (Str × Table)) (tname : Str) (tbl : Table),
      (sheet, tables) ∈ cat → (tname, tbl) ∈ tables →
      (sheet, sortNames (tables.map Prod.fst)) ∈ list_spark cat ∧
      tname ∈ sortNames (tables.map Prod.fst)) ∧
    (∀ (g : Nat → Nat) (t : Table), 12 ≤ t.rows.length →
      roll_spark g t = .ok ((1 + g 0 % 12, 1 + g 1 % 12),
        ((t.rows.getD (g 0 % 12) ([], [])).1, (t.rows.getD (g 1 % 12) ([], [])).2))) := by
  refine ⟨?_, ?_, ?_⟩
  · intro g t h
    simp [roll_spark, h]
  · intro cat sheet tables tname tbl hs ht
    constructor
    · exact List.mem_map_of_mem _ hs
    · have hmem : tname ∈ tables.map Prod.fst := List.mem_map_of_mem Prod.fst ht
      exact (sortNames_perm (tables.map Prod.fst)).mem_iff.mpr hmem
  · intro g t h
    simp only [roll_spark]
    rw [if_neg (by omega)]
    simp [Nat.add_sub_cancel_left]

/-- C6 witness: an 11-row table fails to roll, is still listed under its
sheet, and a 12-row table rolls fine. -/
theorem C6_witness :
    roll_spark (fun _ => 0) (Table.mk ([], []) (List.replicate 11 ([], []))) =
      .error .tooFewRows ∧
    (String.toList "S", sortNames [String.toList "T"]) ∈
      list_spark [(String.toList "S", [(String.toList "T",
        Table.mk ([], []) (List.replicate 11 ([], [])))])] ∧
    roll_spark (fun _ => 0) (Table.mk ([], []) (List.replicate 12 ([], []))) =
      .ok ((1, 1), ([], [])) := by
  refine ⟨C6_twelve_row_precondition.1 (fun _ => 0) _ (by simp), ?_, ?_⟩
  · exact (C6_twelve_row_precondition.2.1
      [(String.toList "S", [(String.toList "T",
        Table.mk ([], []) (List.replicate 11 ([], [])))])]
      (String.toList "S")
      [(String.toList "T", Table.mk ([], []) (List.replicate 11 ([], [])))]
      (String.toList "T") (Table.mk ([], []) (List.replicate 11 ([], [])))
      (by simp) (by simp)).1
  · exact (C6_twelve_row_precondition.2.2 (fun _ => 0)
      (Table.mk ([], []) (List.replicate 12 ([], []))) (by simp)).trans rfl

/-- C8 counterexample: a loader-built catalog whose sheet `S` holds tables
inserted in the order `B`, `A` is listed with table names `A`, `B` —
sorted, not in insertion order. -/
theorem C8_counterexample :
    (load_spark [String.toList "S:", String.toList ";B;", String.toList ";c;c;",
        String.toList ";A;", String.toList ";c;c;"]).map
        (fun st => (st.1, st.2.map Prod.fst)) =
      [(String.toList "S", [String.toList "B", String.toList "A"])] ∧
    list_spark (load_spark [String.toList "S:", String.toList ";B;", String.toList ";c;c;",
        String.toList ";A;", String.toList ";c;c;"]) =
      [(String.toList "S", [String.toList "A", String.toList "B"])] ∧
    [String.toList "A", String.toList "B"] ≠ [String.toList "B", String.toList "A"] := by
  exact ⟨rfl, rfl, by decide⟩

/-- C8 (amended): the listing enumerates the sheets in catalog (insertion)
order, but the table names within each sheet are listed sorted
lexicographically by code point (Python `sorted`), not in insertion order:
each sheet's listed names are a sorted permutation of its table names. -/
theorem C8_sheets_in_order_tables_sorted (cat : Catalog) :
    (list_spark cat).map Prod.fst = cat.map Prod.fst ∧
    ∀ sheet tables, (sheet, tables) ∈ cat →
      (sheet, sortNames (tables.map Prod.fst)) ∈ list_spark cat ∧
      (sortNames (tables.map Prod.fst)).Perm (tables.map Prod.fst) ∧
      (sortNames (tables.map Prod.fst)).Pairwise (fun a b => strLeB a b = true) := by
  constructor
  · simp [list_spark, List.map_map, Function.comp]
  · intro sheet tables hmem
    exact ⟨List.mem_map_of_mem _ hmem, sortNames_perm _, sortNames_pairwise _⟩

/-- C8 witness: the amended-claim theorem applied to a one-sheet catalog
with tables inserted `B`, `A`. -/
theorem C8_witness :
    (String.toList "S", sortNames [String.toList "B", String.toList "A"]) ∈
      list_spark [(String.toList "S",
        [(String.toList "B", Table.mk ([], []) []),
         (String.toList "A", Table.mk ([], []) [])])] ∧
    (sortNames [String.toList "B", String.toList "A"]).Perm
      [String.toList "B", String.toList "A"] := by
  have h := (C8_sheets_in_order_tables_sorted
    [(String.toList "S",
      [(String.toList "B", Table.mk ([], []) []),
       (String.toList "A", Table.mk ([], []) [])])]).2
    (String.toList "S")
    [(String.toList "B", Table.mk ([], []) []),
     (String.toList "A", Table.mk ([], []) [])] (by simp)
  exact ⟨h.1, h.2.1⟩

/-!
## Lemmas about the table selector
-/

theorem find?_append_eq {α : Type} (p : α → Bool) (l1 l2 : List α) :
    (l1 ++ l2).find? p =
      match l1.find? p with
      | some r => some r
      | none => l2.find? p := by
  induction l1 with
  | nil => simp
  | cons a l ih =>
    by_cases h : p a = true
    · simp [List.find?_cons_of_pos _ h]
    · simp only [List.cons_append, List.find?_cons_of_neg _ h]
      exact ih

theorem head?_append_eq {α : Type} (l1 l2 : List α) :
    (l1 ++ l2).head? =
      match l1.head? with
      | some a => some a
      | none => l2.head? := by
  cases l1 <;> rfl

theorem exactSheetLoop_eq (g : Nat → Nat) (key : Str) (data : Catalog) :
    exactSheetLoop g key data = selectPhase1 g key data := by
  induction data with
  | nil => rfl
  | cons st rest ih =>
    obtain ⟨sheet, tables⟩ := st
    by_cases h : pyNorm sheet = key
    · simp [exactSheetLoop, selectPhase1, h]
    · simp only [exactSheetLoop, selectPhase1]
      rw [if_neg h, List.find?_cons_of_neg _ (by simpa using h)]
      exact ih

theorem tableScan_eq (key sheet : Str) (tables : List (Str × Table)) :
    tableScan key sheet tables =
      (tables.map (fun t => (sheet, t.1, t.2))).find? (fun r => pyNorm r.2.1 = key) := by
  induction tables with
  | nil => rfl
  | cons t rest ih =>
    obtain ⟨tn, tbl⟩ := t
    by_cases h : pyNorm tn = key
    · simp [tableScan, h]
    · simp only [tableScan, List.map_cons]
      rw [if_neg h, List.find?_cons_of_neg _ (by simpa using h)]
      exact ih

theorem exactTableLoop_eq (key : Str) (data : Catalog) :
    exactTableLoop key data = selectPhase2 key data := by
  induction data with
  | nil => rfl
  | cons st rest ih =>
    obtain ⟨sheet, tables⟩ := st
    simp only [exactTableLoop, selectPhase2, List.flatMap_cons]
    rw [find?_append_eq, ← tableScan_eq]
    cases hscan : tableScan key sheet tables with
    | some r => rfl
    | none => exact ih

theorem fuzzyTableScan_eq (key sheet : Str) (tables : List (Str × Table)) :
    (tables.filterMap (fun t =>
        if strContains key (pyNorm t.1) then
          some (Except.ok (sheet, t.1, t.2) : Except SelError (Str × Str × Table))
        else none)).head? =
      (fuzzyTableScan key sheet tables).map Except.ok := by
  induction tables with
  | nil => rfl
  | cons t rest ih =>
    obtain ⟨tn, tbl⟩ := t
    by_cases h : strContains key (pyNorm tn) = true
    · simp [fuzzyTableScan, h, List.filterMap_cons]
    · have h' : strContains key (pyNorm tn) = false := by simpa using h
      simp [fuzzyTableScan, h', List.filterMap_cons, ih]

theorem fuzzyLoop_eq (g : Nat → Nat) (key : Str) (data : Catalog) :
    fuzzyLoop g key data = selectPhase34 g key data := by
  induction data with
  | nil => rfl
  | cons st rest ih =>
    obtain ⟨sheet, tables⟩ := st
    simp only [fuzzyLoop, selectPhase34, List.flatMap_cons, fuzzyCandidates]
    by_cases h : strContains key (pyNorm sheet) = true
    · rw [if_pos h, if_pos h]
      rfl
    · rw [if_neg (by simp [h]), if_neg (by simp [h])]
      rw [List.nil_append, head?_append_eq, fuzzyTableScan_eq]
      cases hscan : fuzzyTableScan key sheet tables with
      | some r => rfl
      | none =>
        simp only [Option.map_none]
        exact ih

/-!
## Claims about the table selector
-/

/-- C2 counterexample: with the catalog `[sheet "A" with table "xTablex";
sheet "xSheetx" with table "B"]` and query `x`, no exact match exists
anywhere, a fuzzy sheet match exists (`x` is a substring of the normalized
`xSheetx`), yet selection returns the fuzzy table match `xTablex` from the
earlier sheet `A`: a fuzzy sheet match elsewhere in the catalog does not
take precedence over a fuzzy table match in an earlier sheet, so fuzzy
matching is not a sheet-first full scan followed by a table scan. -/
theorem C2_counterexample :
    strContains (pyNorm (String.toList "x")) (pyNorm (String.toList "xSheetx")) = true ∧
    (([(String.toList "A", [(String.toList "xTablex", Table.mk ([], []) [])]),
       (String.toList "xSheetx", [(String.toList "B", Table.mk ([], []) [])])] : Catalog).all
      (fun st => !(pyNorm st.1 == pyNorm (String.toList "x")) &&
        st.2.all (fun t => !(pyNorm t.1 == pyNorm (String.toList "x"))))) = true ∧
    select_table (fun _ => 0)
      [(String.toList "A", [(String.toList "xTablex", Table.mk ([], []) [])]),
       (String.toList "xSheetx", [(String.toList "B", Table.mk ([], []) [])])]
      (String.toList "x") =
      .ok (String.toList "A", String.toList "xTablex", Table.mk ([], []) []) :=
  ⟨rfl, rfl, rfl⟩

/-- C2 (amended): `select_table` resolves a name in this order — (1) a full
catalog scan for an exact normalized sheet-name match, (2) a full scan for
an exact normalized table-name match, then (3) a single combined fuzzy scan
that, for each sheet in catalog order, first tries the sheet-name substring
test and then that sheet's table names; substring matches therefore only
trigger when no exact match exists anywhere, but a fuzzy table match in an
earlier sheet beats a fuzzy sheet match in a later one; if nothing matches
it fails with a no-match error naming the input. -/
theorem C2_selection_phase_structure (g : Nat → Nat) (data : Catalog) (name : Str) :
    select_table g data name = selectTableSpec g data name := by
  simp only [select_table, selectTableSpec]
  rw [exactSheetLoop_eq, exactTableLoop_eq, fuzzyLoop_eq]

/-!
## Lemmas about the spark loader
-/

theorem strip_nil : strip [] = [] := rfl

theorem splitSemi_no_semi (l : Str) (h : ';' ∉ l) : splitSemi l = [l] := by
  induction l with
  | nil => rfl
  | cons c cs ih =>
    have hc : ¬ c = ';' := fun hh => h (hh ▸ List.mem_cons_self c cs)
    have ih2 := ih (fun hm => h (List.mem_cons_of_mem c hm))
    simp [splitSemi, hc, ih2]

theorem splitSemi_append (x y : Str) (h : ';' ∉ x) :
    splitSemi (x ++ ';' :: y) = x :: splitSemi y := by
  induction x with
  | nil => simp [splitSemi]
  | cons c cs ih =>
    have hc : ¬ c = ';' := fun hh => h (hh ▸ List.mem_cons_self c cs)
    have ih2 := ih (fun hm => h (List.mem_cons_of_mem c hm))
    simp [splitSemi, hc, ih2]

theorem dropWhile_eq_self_of_strip (l : Str) (h : strip l = l) :
    l.dropWhile isAsciiWs = l := by
  have hsuf : l.dropWhile isAsciiWs <:+ l := List.dropWhile_suffix _
  apply hsuf.eq_of_length
  have h1 : (l.dropWhile isAsciiWs).length ≤ l.length := hsuf.length_le
  have h2 : ((l.dropWhile isAsciiWs).reverse.dropWhile isAsciiWs).length ≤
      (l.dropWhile isAsciiWs).length := by
    have := (List.dropWhile_suffix (l := (l.dropWhile isAsciiWs).reverse)
      isAsciiWs).length_le
    simpa using this
  have h3 : (strip l).length =
      ((l.dropWhile isAsciiWs).reverse.dropWhile isAsciiWs).length := by
    simp [strip]
  rw [h] at h3
  omega

theorem head_not_ws_of_strip (c : Char) (S2 : Str) (h : strip (c :: S2) = c :: S2) :
    isAsciiWs c = false := by
  have hd := dropWhile_eq_self_of_strip _ h
  by_contra hc
  rw [Bool.not_eq_false] at hc
  rw [List.dropWhile_cons, if_pos hc] at hd
  have hlen : (S2.dropWhile isAsciiWs).length ≤ S2.length :=
    (List.dropWhile_suffix _).length_le
  have := congrArg List.length hd
  simp at this
  omega

theorem strip_of_ends (x y : Char) (l : Str) (hx : isAsciiWs x = false)
    (hy : isAsciiWs y = false) : strip (x :: (l ++ [y])) = x :: (l ++ [y]) := by
  unfold strip
  rw [List.dropWhile_cons, if_neg (by simp [hx])]
  have hrev : (x :: (l ++ [y])).reverse = y :: (l.reverse ++ [x]) := by simp
  rw [hrev, List.dropWhile_cons, if_neg (by simp [hy]), ← hrev, List.reverse_reverse]

theorem takeWhile_append_colon (S : Str) (h : ':' ∉ S) :
    (S ++ [':']).takeWhile (fun c => !(c == ':')) = S := by
  induction S with
  | nil => rfl
  | cons c cs ih =>
    have hc : ¬ c = ':' := fun hh => h (hh ▸ List.mem_cons_self c cs)
    have ih2 := ih (fun hm => h (List.mem_cons_of_mem c hm))
    rw [List.cons_append, List.takeWhile_cons, if_pos (by simp [hc]), ih2]

theorem splitStrip_row (x y z : Str) (hx : strip x = x) (hxs : ';' ∉ x)
    (hy : strip y = y) (hys : ';' ∉ y) (hz : strip z = z) (hzs : ';' ∉ z) :
    splitStrip (x ++ ';' :: (y ++ ';' :: z)) = [x, y, z] := by
  unfold splitStrip
  rw [splitSemi_append x _ hxs, splitSemi_append y _ hys, splitSemi_no_semi z hzs]
  simp [hx, hy, hz]

theorem takeRows_all (ls : List Str)
    (h : ∀ l ∈ ls, 3 ≤ (splitStrip l).length ∧ isDigits ((splitStrip l).getD 0 []) = true) :
    takeRows ls =
      (ls.map (fun l => ((splitStrip l).getD 1 [], (splitStrip l).getD 2 [])), []) := by
  induction ls with
  | nil => rfl
  | cons l rest ih =>
    have hl := h l (List.mem_cons_self l rest)
    have ih2 := ih (fun x hx => h x (List.mem_cons_of_mem l hx))
    simp only [takeRows]
    rw [if_pos ⟨hl.1, hl.2⟩]
    simp [ih2, List.map_cons]

theorem loadLoopFuel_nil (fuel : Nat) (cur : Option Str) (sheets : Catalog) :
    loadLoopFuel fuel [] cur sheets = sheets := by
  cases fuel <;> rfl

theorem loadLoop_sheet_step (fuel : Nat) (S : Str) (rest : List Str) (cur : Option Str)
    (sheets : Catalog) (hne : S ≠ []) (hstrip : strip S = S) (hsemi : ';' ∉ S)
    (hcolon : ':' ∉ S) :
    loadLoopFuel (fuel + 1) ((S ++ [':']) :: rest) cur sheets =
      loadLoopFuel fuel rest (some S) (setdefault S [] sheets) := by
  obtain ⟨c, S2, rfl⟩ : ∃ c S2, S = c :: S2 := by
    cases S with
    | nil => exact absurd rfl hne
    | cons c S2 => exact ⟨c, S2, rfl⟩
  have hhead : isAsciiWs c = false := head_not_ws_of_strip c S2 hstrip
  have hraw : strip ((c :: S2) ++ [':']) = (c :: S2) ++ [':'] := by
    have := strip_of_ends c ':' S2 hhead (by decide)
    simpa using this
  have hmem : (':' : Char) ∈ (c :: S2) ++ [':'] := List.mem_append_right _ (by simp)
  have hnot : (';' : Char) ∉ (c :: S2) ++ [':'] := by
    intro hm
    rcases List.mem_append.mp hm with hm | hm
    · exact hsemi hm
    · simp at hm
  simp only [loadLoopFuel]
  rw [hraw, if_pos ⟨hmem, hnot⟩, takeWhile_append_colon _ hcolon, hstrip]

theorem loadLoop_table_step (fuel : Nat) (T c1 c2 : Str) (rows : List Str)
    (S : Str) (sheets : Catalog)
    (hT : T ≠ []) (hTs : strip T = T) (hTsemi : ';' ∉ T)
    (hc1 : strip c1 = c1) (hc1s : ';' ∉ c1) (hc2 : strip c2 = c2) (hc2s : ';' ∉ c2) :
    loadLoopFuel (fuel + 1) ((';' :: (T ++ [';'])) :: (';' :: (c1 ++ ';' :: c2)) :: rows)
        (some S) sheets =
      loadLoopFuel fuel (takeRows rows).2 (some S)
        (updateSheet S T (Table.mk (c1, c2) (takeRows rows).1) sheets) := by
  have hraw : strip (';' :: (T ++ [';'])) = ';' :: (T ++ [';']) :=
    strip_of_ends ';' ';' T (by decide) (by decide)
  have hsplit : splitStrip (';' :: (T ++ [';'])) = [[], T, []] := by
    unfold splitStrip
    have h1 : splitSemi (';' :: (T ++ [';'])) = [] :: splitSemi (T ++ [';']) := by
      simp [splitSemi]
    have h2 : splitSemi (T ++ [';']) = T :: splitSemi [] := by
      have := splitSemi_append T [] hTsemi
      simpa using this
    rw [h1, h2]
    simp [hTs, strip_nil, splitSemi]
  have hcols : splitStrip (';' :: (c1 ++ ';' :: c2)) = [[], c1, c2] := by
    unfold splitStrip
    have h1 : splitSemi (';' :: (c1 ++ ';' :: c2)) = [] :: splitSemi (c1 ++ ';' :: c2) := by
      simp [splitSemi]
    rw [h1, splitSemi_append c1 c2 hc1s, splitSemi_no_semi c2 hc2s]
    simp [hc1, hc2, strip_nil]
  have hcount : ((';' :: (T ++ [';'])).count ';') = 2 := by
    rw [List.count_cons_self, List.count_append]
    rw [List.count_eq_zero.mpr hTsemi]
    rfl
  have hnotsheet : ¬ ((':' : Char) ∈ ';' :: (T ++ [';']) ∧
      (';' : Char) ∉ ';' :: (T ++ [';'])) := by
    rintro ⟨-, hno⟩
    exact hno (List.mem_cons_self _ _)
  simp only [loadLoopFuel]
  rw [hraw, if_neg hnotsheet, if_pos (by rw [hcount]), hsplit,
    if_pos (by refine ⟨by simp, rfl, ?_, rfl⟩; simpa using hT), hcols]
  simp only [List.getD]
  rw [if_pos (by simp)]
  rfl

/-!
## Claim about the loader / roller round trip
-/

/-- C3: loading a delimited file made of a sheet header `S:`, one table
header `;T;`, a column-label line `;c1;c2` and 12 digit-prefixed data rows
`dᵢ;aᵢ;bᵢ` yields a catalog holding exactly that sheet with that table, the
given column labels and exactly the 12 row pairs in file order; rolling the
resulting table returns two indices in `[1, 12]` and the pair (column 1 of
the first indexed row, column 2 of the second indexed row), 1-based. The
hypotheses say the names and cells contain no field separators and no
surrounding whitespace and the row prefixes are digit strings. -/
theorem C3_roundtrip (S T c1 c2 : Str) (d a b : Nat → Str)
    (hS : S ≠ [] ∧ strip S = S ∧ ';' ∉ S ∧ ':' ∉ S)
    (hT : T ≠ [] ∧ strip T = T ∧ ';' ∉ T)
    (hc1 : strip c1 = c1 ∧ ';' ∉ c1) (hc2 : strip c2 = c2 ∧ ';' ∉ c2)
    (hd : ∀ i, i < 12 → isDigits (d i) = true ∧ strip (d i) = d i ∧ ';' ∉ d i)
    (ha : ∀ i, i < 12 → strip (a i) = a i ∧ ';' ∉ a i)
    (hb : ∀ i, i < 12 → strip (b i) = b i ∧ ';' ∉ b i) :
    load_spark (sparkSampleFile S T c1 c2 d a b) =
      [(S, [(T, Table.mk (c1, c2) ((List.range 12).map (fun i => (a i, b i))))])] ∧
    ((List.range 12).map (fun i => (a i, b i))).length = 12 ∧
    ∀ g : Nat → Nat,
      roll_spark g (Table.mk (c1, c2) ((List.range 12).map (fun i => (a i, b i)))) =
        .ok ((1 + g 0 % 12, 1 + g 1 % 12), (a (g 0 % 12), b (g 1 % 12))) ∧
      1 ≤ 1 + g 0 % 12 ∧ 1 + g 0 % 12 ≤ 12 ∧ 1 ≤ 1 + g 1 % 12 ∧ 1 + g 1 % 12 ≤ 12 := by
  have hrows : ∀ l ∈ (List.range 12).map (fun i => d i ++ ';' :: (a i ++ ';' :: b i)),
      3 ≤ (splitStrip l).length ∧ isDigits ((splitStrip l).getD 0 []) = true := by
    intro l hl
    simp only [List.mem_map, List.mem_range] at hl
    obtain ⟨i, hi, rfl⟩ := hl
    obtain ⟨hd1, hd2, hd3⟩ := hd i hi
    obtain ⟨ha1, ha2⟩ := ha i hi
    obtain ⟨hb1, hb2⟩ := hb i hi
    rw [splitStrip_row _ _ _ hd2 hd3 ha1 ha2 hb1 hb2]
    exact ⟨by simp, by simpa using hd1⟩
  have htake := takeRows_all _ hrows
  have hmap : ((List.range 12).map (fun i => d i ++ ';' :: (a i ++ ';' :: b i))).map
      (fun l => ((splitStrip l).getD 1 [], (splitStrip l).getD 2 [])) =
      (List.range 12).map (fun i => (a i, b i)) := by
    rw [List.map_map]
    apply List.map_congr_left
    intro i hi
    simp only [List.mem_range] at hi
    obtain ⟨hd1, hd2, hd3⟩ := hd i hi
    obtain ⟨ha1, ha2⟩ := ha i hi
    obtain ⟨hb1, hb2⟩ := hb i hi
    simp [Function.comp, splitStrip_row _ _ _ hd2 hd3 ha1 ha2 hb1 hb2]
  refine ⟨?_, by simp, ?_⟩
  · have hlen : (sparkSampleFile S T c1 c2 d a b).length = 15 := by
      simp [sparkSampleFile]
    show loadLoopFuel (sparkSampleFile S T c1 c2 d a b).length
      (sparkSampleFile S T c1 c2 d a b) none [] = _
    rw [hlen]
    show loadLoopFuel (14 + 1) ((S ++ [':']) :: (';' :: (T ++ [';'])) ::
      (';' :: (c1 ++ ';' :: c2)) ::
      (List.range 12).map (fun i => d i ++ ';' :: (a i ++ ';' :: b i))) none [] = _
    rw [loadLoop_sheet_step 14 S _ none [] hS.1 hS.2.1 hS.2.2.1 hS.2.2.2]
    show loadLoopFuel (13 + 1) _ _ _ = _
    rw [loadLoop_table_step 13 T c1 c2 _ S _ hT.1 hT.2.1 hT.2.2 hc1.1 hc1.2 hc2.1 hc2.2]
    rw [htake]
    rw [loadLoopFuel_nil]
    simp only [hmap, setdefault, updateSheet, upsert]
    simp
  · intro g
    have h0 : g 0 % 12 < 12 := Nat.mod_lt _ (by norm_num)
    have h1 : g 1 % 12 < 12 := Nat.mod_lt _ (by norm_num)
    refine ⟨?_, by omega, by omega, by omega, by omega⟩
    have hlen2 : ((List.range 12).map (fun i => (a i, b i))).length = 12 := by simp
    simp only [roll_spark]
    rw [if_neg (by simp)]
    have e1 : 1 + g 0 % 12 - 1 = g 0 % 12 := by omega
    have e2 : 1 + g 1 % 12 - 1 = g 1 % 12 := by omega
    rw [e1, e2]
    have hg0 : ((List.range 12).map (fun i => (a i, b i))).getD (g 0 % 12) ([], []) =
        (a (g 0 % 12), b (g 0 % 12)) := by
      rw [List.getD_eq_getElem _ _ (by simpa using h0)]
      simp
    have hg1 : ((List.range 12).map (fun i => (a i, b i))).getD (g 1 % 12) ([], []) =
        (a (g 1 % 12), b (g 1 % 12)) := by
      rw [List.getD_eq_getElem _ _ (by simpa using h1)]
      simp
    rw [hg0, hg1]

/-- C3 witness: a concrete 15-line file (sheet `Alpha`, table `Beta`,
columns `Left`/`Right`, rows `1;aX;bX` for X = A..L) loads to the expected
catalog, and rolling with the constant-5 stream gives indices (6, 6) and
picks row 6's cells. -/
theorem C3_witness :
    load_spark (sparkSampleFile (String.toList "Alpha") (String.toList "Beta")
        (String.toList "Left") (String.toList "Right")
        (fun _ => ['1']) (fun i => ['a', Char.ofNat (65 + i)])
        (fun i => ['b', Char.ofNat (65 + i)])) =
      [(String.toList "Alpha", [(String.toList "Beta",
        Table.mk (String.toList "Left", String.toList "Right")
          ((List.range 12).map (fun i => (['a', Char.ofNat (65 + i)],
            ['b', Char.ofNat (65 + i)]))))])] ∧
    roll_spark (fun _ => 5)
        (Table.mk (String.toList "Left", String.toList "Right")
          ((List.range 12).map (fun i => (['a', Char.ofNat (65 + i)],
            ['b', Char.ofNat (65 + i)])))) =
      .ok ((6, 6), (['a', 'F'], ['b', 'F'])) := by
  have h := C3_roundtrip (String.toList "Alpha") (String.toList "Beta")
    (String.toList "Left") (String.toList "Right")
    (fun _ => ['1']) (fun i => ['a', Char.ofNat (65 + i)])
    (fun i => ['b', Char.ofNat (65 + i)])
    (by decide) (by decide) (by decide) (by decide) (by decide) (by decide) (by decide)
  refine ⟨h.1, ?_⟩
  exact ((h.2.2 (fun _ => 5)).1).trans (by rfl)
